import Mathlib

/-!
Verification of the threaded-comment core of the social-platform client:
the comment-tree builder, the vote handlers and the reply-submission
handler, shallowly embedded from the TypeScript components
(PostDetail.tsx, TrendingPage.tsx / PostFeed, SearchResults.tsx).
-/

/-- A comment record, as in the App data model (interface Comment):
identifier, content, author and post references, optional parent
reference, vote counters, stored depth, soft-delete flag, creation
timestamp.  The transient reply list is not a field here: the tree
builder represents it in its id map. -/
structure Comment where
  id : String
  content : String
  authorId : String
  postId : String
  parentId : Option String
  upvotes : Int
  downvotes : Int
  depth : Nat
  isDeleted : Bool
  createdAt : Nat
deriving DecidableEq, Repr

/-- A post record (interface Post), restricted to the fields the
verified handlers read or write. -/
structure Post where
  id : String
  title : String
  authorId : String
  communityId : String
  upvotes : Int
  downvotes : Int
  commentCount : Int
  createdAt : Nat
deriving DecidableEq, Repr

/-- Vote target kind: the targetType field, a union of the two string
literals in the source. -/
inductive TargetType where
  | post
  | comment
deriving DecidableEq, Repr

/-- Vote direction: the voteType field, a union of the two string
literals in the source. -/
inductive VoteType where
  | upvote
  | downvote
deriving DecidableEq, Repr

/-- A vote record (votes collection): identifier, voting user, target
identifier, target kind, direction. -/
structure Vote where
  id : String
  userId : String
  targetId : String
  targetType : TargetType
  voteType : VoteType
deriving DecidableEq, Repr

/-! ## The comment tree builder (PostDetail.tsx, buildCommentTree) -/

/-- The parent reference as the JavaScript truthiness test
(if comment.parentId) sees it: null and the empty string are both
falsy, every other string is truthy. -/
def parentKey (c : Comment) : Option String :=
  match c.parentId with
  | none => none
  | some p => if p.isEmpty then none else some p

/-- The comment map built in the first pass: comment id to the mutable
copy of the comment together with its replies list.  Replies are held
as the ids of the child nodes, which the JavaScript code holds as
aliased references into the same map. -/
abbrev CMap := List (String × (Comment × List String))

/-- Map lookup (Map.get): first entry with the given key. -/
def mapGet (m : CMap) (k : String) : Option (Comment × List String) :=
  match m with
  | [] => none
  | (k2, v) :: rest => if k2 = k then some v else mapGet rest k

/-- Map write (Map.set): overwrite the entry with the given key, or
append a fresh entry. -/
def mapSet (m : CMap) (k : String) (v : Comment × List String) : CMap :=
  match m with
  | [] => [(k, v)]
  | (k2, v2) :: rest => if k2 = k then (k, v) :: rest else (k2, v2) :: mapSet rest k v

/-- First pass of buildCommentTree: for each comment, set the map entry
for its id to a copy with an empty replies array. -/
def initMap (cs : List Comment) : CMap :=
  cs.foldl (fun m c => mapSet m c.id (c, [])) []

/-- One step of the second pass of buildCommentTree: if the comment has
a (truthy) parent reference and the parent is in the map, append the
comment to the parent's replies; if it has no (truthy) parent
reference, append it to the root list; otherwise do nothing (the
comment is neither a root nor anyone's reply). -/
def buildStep (s : CMap × List String) (c : Comment) : CMap × List String :=
  match parentKey c with
  | some pid =>
    match mapGet s.1 pid with
    | some pv => (mapSet s.1 pid (pv.1, pv.2 ++ [c.id]), s.2)
    | none => s
  | none => (s.1, s.2 ++ [c.id])

/-- buildCommentTree (PostDetail.tsx lines 30 to 54): two passes over
the flat comment list; returns the final comment map together with the
root comment list (as ids resolved against the map, mirroring the
aliased object references of the source). -/
def buildCommentTree (cs : List Comment) : CMap × List String :=
  cs.foldl buildStep (initMap cs, [])

/-- Number of nodes reachable from a node of the returned tree,
counted recursively through the replies lists, with a fuel bound on the
recursion depth (the JavaScript traversal would not terminate on a
cyclic structure; any fuel at least the input length is enough for the
trees the builder produces from well-formed input). -/
def countNode (m : CMap) : Nat → String → Nat
  | 0 => fun _ => 0
  | fuel + 1 => fun cid =>
      match mapGet m cid with
      | none => 0
      | some v => 1 + (v.2.map (countNode m fuel)).sum

/-- Bool test that every (truthy) parent reference in the list points
at a comment appearing strictly earlier, accumulating the ids seen so
far.  This is the chronological well-formedness the specification
assumes of the flat comment list. -/
def parentsResolveEarlier (seen : List String) : List Comment → Bool
  | [] => true
  | c :: rest =>
    (match parentKey c with
     | none => true
     | some p => decide (p ∈ seen)) && parentsResolveEarlier (seen ++ [c.id]) rest

/-- Every comment's parent reference, when truthy, names a comment that
appears strictly earlier in the list. -/
def parentEarlier (cs : List Comment) : Bool :=
  parentsResolveEarlier [] cs

/-! ## The vote and reply handlers -/

/-- The where clause of the vote lookup: AND of userId, targetId and
targetType equalities. -/
def voteKeyMatches (u tid : String) (tt : TargetType) (v : Vote) : Bool :=
  decide (v.userId = u ∧ v.targetId = tid ∧ v.targetType = tt)

/-- blink.db.votes.list with the AND filter of handleVote: the stored
votes by the given user on the given target, in store order. -/
def voteMatches (votes : List Vote) (u tid : String) (tt : TargetType) : List Vote :=
  votes.filter (voteKeyMatches u tid tt)

/-- The record store as the handlers see it: the votes, comments and
posts collections. -/
structure DBState where
  votes : List Vote
  comments : List Comment
  posts : List Post
deriving DecidableEq, Repr

namespace PostDetail

/-- handleVote of PostDetail.tsx (lines 137 to 184): look up the first
existing vote by the (user, target id, target kind) triple (list with
limit 1); if it has the same direction delete it, if the opposite
direction update its voteType, and if there is none create a fresh
vote record.  The subsequent reload only reads, so the comments and
posts collections are returned unchanged. -/
def handleVote (st : DBState) (userId targetId : String)
    (targetType : TargetType) (voteType : VoteType) (freshId : String) : DBState :=
  match (voteMatches st.votes userId targetId targetType).head? with
  | some existingVote =>
    if existingVote.voteType = voteType then
      { st with votes := st.votes.filter (fun w => w.id != existingVote.id) }
    else
      { st with votes := st.votes.map (fun w =>
          if w.id = existingVote.id then { w with voteType := voteType } else w) }
  | none =>
    { st with votes := st.votes ++
        [{ id := freshId, userId := userId, targetId := targetId,
           targetType := targetType, voteType := voteType }] }

/-- Whitespace trimming of the reply text (String.prototype.trim):
drop whitespace from both ends. -/
def jsTrim (s : String) : String :=
  String.mk (((s.data.dropWhile Char.isWhitespace).reverse.dropWhile
    Char.isWhitespace).reverse)

/-- handleSubmitReply of PostDetail.tsx (lines 226 to 265): a blank
reply text is rejected without any store operation; otherwise a fresh
comment is created with the replied-to comment as parent and depth
min(depth + 1, 10), and, when the component holds the post, the stored
post record's commentCount is set to that held post's count plus one.
The statePost argument is the component's post state, the depth
argument the nesting depth passed by renderComment at the call site
(line 421). -/
def handleSubmitReply (st : DBState) (statePost : Option Post) (replyText : String)
    (userId postId parentId : String) (depth : Nat) (freshId : String) (now : Nat) : DBState :=
  if (jsTrim replyText).isEmpty then st
  else
    let newComment : Comment :=
      { id := freshId, content := jsTrim replyText, authorId := userId,
        postId := postId, parentId := some parentId, upvotes := 0, downvotes := 0,
        depth := min (depth + 1) 10, isDeleted := false, createdAt := now }
    let st1 := { st with comments := st.comments ++ [newComment] }
    match statePost with
    | some post =>
      { st1 with posts := st1.posts.map (fun q =>
          if q.id = postId then { q with commentCount := post.commentCount + 1 } else q) }
    | none => st1

end PostDetail

namespace PostFeed

/-- handleVote of the PostFeed component (lines 709 to 785): the vote
record logic of PostDetail.handleVote specialized to posts, with the
stored post's vote counters adjusted alongside (minus one on retract,
a plus-one/minus-one swap on direction change, plus one on create).
The posts argument stands for the component's loaded post list, which
the source keeps synchronized with the store and whose counters it
writes back through posts.update. -/
def handleVote (votes : List Vote) (posts : List Post) (userId postId : String)
    (voteType : VoteType) (freshId : String) : List Vote × List Post :=
  match (voteMatches votes userId postId TargetType.post).head? with
  | some existingVote =>
    if existingVote.voteType = voteType then
      (votes.filter (fun w => w.id != existingVote.id),
       match posts.find? (fun p => p.id == postId) with
       | some post =>
         let updatedPost :=
           if voteType = VoteType.upvote then { post with upvotes := post.upvotes - 1 }
           else { post with downvotes := post.downvotes - 1 }
         posts.map (fun q => if q.id = postId then updatedPost else q)
       | none => posts)
    else
      (votes.map (fun w =>
         if w.id = existingVote.id then { w with voteType := voteType } else w),
       match posts.find? (fun p => p.id == postId) with
       | some post =>
         let updatedPost :=
           { post with
             upvotes := if voteType = VoteType.upvote then post.upvotes + 1 else post.upvotes - 1,
             downvotes := if voteType = VoteType.downvote then post.downvotes + 1 else post.downvotes - 1 }
         posts.map (fun q => if q.id = postId then updatedPost else q)
       | none => posts)
  | none =>
    (votes ++ [{ id := freshId, userId := userId, targetId := postId,
                 targetType := TargetType.post, voteType := voteType }],
     match posts.find? (fun p => p.id == postId) with
     | some post =>
       let updatedPost :=
         if voteType = VoteType.upvote then { post with upvotes := post.upvotes + 1 }
         else { post with downvotes := post.downvotes + 1 }
       posts.map (fun q => if q.id = postId then updatedPost else q)
     | none => posts)

end PostFeed

namespace SearchResults

/-- handleVote of SearchResults.tsx (lines 104 to 107): the body only
logs the arguments; no store collection is read or written, so the
store state is returned unchanged. -/
def handleVote (st : DBState) (postId : String) (voteType : VoteType) : DBState :=
  st

end SearchResults

namespace TrendingPage

/-- handleVote of TrendingPage.tsx (lines 128 to 131): the body only
logs the arguments; no store collection is read or written, so the
store state is returned unchanged. -/
def handleVote (st : DBState) (postId : String) (voteType : VoteType) : DBState :=
  st

end TrendingPage

/-! ## Store invariant and example data -/

/-- The vote store invariant of the data model: at most one vote
record per (user, target id, target kind) triple. -/
def atMostOneVote (votes : List Vote) : Prop :=
  ∀ u tid tt, (voteMatches votes u tid tt).length ≤ 1

/-- Example comment with the given id and parent reference, all other
fields fixed. -/
def mkComment (i : String) (p : Option String) : Comment :=
  { id := i, content := "text", authorId := "author", postId := "post1",
    parentId := p, upvotes := 0, downvotes := 0, depth := 0,
    isDeleted := false, createdAt := 0 }

/-- The worked example of the specification: A at the root, B and C
nested under it, D a second child of A, in creation order. -/
def exampleThread : List Comment :=
  [mkComment "A" none, mkComment "B" (some "A"),
   mkComment "C" (some "B"), mkComment "D" (some "A")]

/-- A comment whose parent reference names no comment of its input. -/
def orphanComment : Comment := mkComment "orphan" (some "missing")

/-- Example post record. -/
def examplePost : Post :=
  { id := "p1", title := "title", authorId := "author", communityId := "comm1",
    upvotes := 0, downvotes := 0, commentCount := 0, createdAt := 0 }

/-- A comment with a positive stored score, for the vote scenarios. -/
def votedComment : Comment :=
  { id := "c1", content := "text", authorId := "author", postId := "p1",
    parentId := none, upvotes := 5, downvotes := 1, depth := 0,
    isDeleted := false, createdAt := 0 }

/-- An existing upvote by user u1 on comment c1. -/
def existingUpvote : Vote :=
  { id := "v1", userId := "u1", targetId := "c1",
    targetType := TargetType.comment, voteType := VoteType.upvote }

/-- Store holding the voted comment and the single existing upvote. -/
def votedState : DBState :=
  { votes := [existingUpvote], comments := [votedComment], posts := [] }

/-- Store with no votes, one comment and one post. -/
def freshState : DBState :=
  { votes := [], comments := [votedComment], posts := [examplePost] }

/-- An existing upvote by user u1 on post p1, for the home-feed
scenarios. -/
def examplePostVote : Vote :=
  { id := "v2", userId := "u1", targetId := "p1",
    targetType := TargetType.post, voteType := VoteType.upvote }

/-! ## Map lemmas -/

theorem mapGet_mapSet_self (m : CMap) (k : String) (v : Comment × List String) :
    mapGet (mapSet m k v) k = some v := by
  induction m with
  | nil => simp [mapSet, mapGet]
  | cons hd tl ih =>
    by_cases h : hd.1 = k
    · simp [mapSet, mapGet, h]
    · simp [mapSet, mapGet, h, ih]

theorem mapGet_mapSet_ne (m : CMap) (k k' : String) (v : Comment × List String)
    (h : k' ≠ k) : mapGet (mapSet m k v) k' = mapGet m k' := by
  induction m with
  | nil => simp [mapSet, mapGet, Ne.symm h]
  | cons hd tl ih =>
    obtain ⟨k2, v2⟩ := hd
    by_cases hk : k2 = k
    · subst hk
      simp [mapSet, mapGet, Ne.symm h]
    · by_cases hk' : k2 = k'
      · simp [mapSet, mapGet, hk, hk', h]
      · simp [mapSet, mapGet, hk, hk', ih]

theorem foldl_initStep_get_not_mem (l : List Comment) (acc : CMap) (k : String)
    (h : k ∉ l.map (fun c => c.id)) :
    mapGet (l.foldl (fun m c => mapSet m c.id (c, [])) acc) k = mapGet acc k := by
  induction l generalizing acc with
  | nil => rfl
  | cons c l ih =>
    simp only [List.map_cons, List.mem_cons, not_or] at h
    simp only [List.foldl_cons]
    rw [ih _ h.2, mapGet_mapSet_ne _ _ _ _ h.1]

theorem foldl_initStep_get_mem (l : List Comment) (acc : CMap) (c : Comment)
    (hc : c ∈ l) (hn : (l.map (fun c => c.id)).Nodup) :
    mapGet (l.foldl (fun m c => mapSet m c.id (c, [])) acc) c.id = some (c, []) := by
  induction l generalizing acc with
  | nil => cases hc
  | cons d l ih =>
    simp only [List.map_cons, List.nodup_cons] at hn
    rcases List.mem_cons.mp hc with h | h
    · subst h
      simp only [List.foldl_cons]
      rw [foldl_initStep_get_not_mem _ _ _ hn.1, mapGet_mapSet_self]
    · exact ih _ h hn.2

theorem initMap_get_mem (cs : List Comment) (c : Comment) (hc : c ∈ cs)
    (hn : (cs.map (fun c => c.id)).Nodup) :
    mapGet (initMap cs) c.id = some (c, []) :=
  foldl_initStep_get_mem cs [] c hc hn

theorem initMap_get_not_mem (cs : List Comment) (k : String)
    (h : k ∉ cs.map (fun c => c.id)) : mapGet (initMap cs) k = none :=
  foldl_initStep_get_not_mem cs [] k h

/-! ## Characterization of the two passes -/

theorem foldl_buildStep_snd (l : List Comment) (s : CMap × List String) :
    (l.foldl buildStep s).2 =
      s.2 ++ (l.filter (fun c => decide (parentKey c = none))).map (fun c => c.id) := by
  induction l generalizing s with
  | nil => simp
  | cons c l ih =>
    simp only [List.foldl_cons]
    rw [ih]
    cases hp : parentKey c with
    | none =>
      simp only [buildStep, hp, List.filter_cons, decide_eq_true_eq]
      simp [List.append_assoc]
    | some p =>
      have hsnd : (buildStep s c).2 = s.2 := by
        cases hg : mapGet s.1 p <;> simp [buildStep, hp, hg]
      rw [hsnd]
      simp [List.filter_cons, hp]

theorem foldl_buildStep_fst_get (l : List Comment) (s : CMap × List String) (i : String) :
    mapGet (l.foldl buildStep s).1 i =
      (mapGet s.1 i).map (fun v =>
        (v.1, v.2 ++ (l.filter (fun c => decide (parentKey c = some i))).map (fun c => c.id))) := by
  induction l generalizing s with
  | nil =>
    simp only [List.foldl_nil, List.filter_nil, List.map_nil, List.append_nil]
    cases h : mapGet s.1 i <;> simp
  | cons c l ih =>
    simp only [List.foldl_cons]
    rw [ih]
    cases hp : parentKey c with
    | none =>
      have hfst : (buildStep s c).1 = s.1 := by simp [buildStep, hp]
      rw [hfst]
      simp [List.filter_cons, hp]
    | some p =>
      by_cases hip : i = p
      · subst hip
        cases hg : mapGet s.1 i with
        | none =>
          have hfst : (buildStep s c).1 = s.1 := by simp [buildStep, hp, hg]
          rw [hfst, hg]
          simp
        | some pv =>
          have hfst : (buildStep s c).1 = mapSet s.1 i (pv.1, pv.2 ++ [c.id]) := by
            simp [buildStep, hp, hg]
          rw [hfst, mapGet_mapSet_self]
          simp [List.filter_cons, hp, List.append_assoc]
      · have hfst : mapGet (buildStep s c).1 i = mapGet s.1 i := by
          cases hg : mapGet s.1 p with
          | none => simp [buildStep, hp, hg]
          | some pv =>
            simp only [buildStep, hp, hg]
            exact mapGet_mapSet_ne _ _ _ _ hip
        rw [hfst]
        have hfalse : (decide (parentKey c = some i)) = false := by
          simp only [hp, decide_eq_false_iff_not, Ne, Option.some.injEq]
          exact fun hh => hip hh.symm
        simp [List.filter_cons, hfalse]

theorem buildCommentTree_snd (cs : List Comment) :
    (buildCommentTree cs).2 =
      (cs.filter (fun c => decide (parentKey c = none))).map (fun c => c.id) := by
  have h := foldl_buildStep_snd cs (initMap cs, [])
  simpa [buildCommentTree] using h

theorem buildCommentTree_get_of_mem (cs : List Comment) (c : Comment) (hc : c ∈ cs)
    (hn : (cs.map (fun c => c.id)).Nodup) :
    mapGet (buildCommentTree cs).1 c.id =
      some (c, (cs.filter (fun d => decide (parentKey d = some c.id))).map (fun d => d.id)) := by
  have h := foldl_buildStep_fst_get cs (initMap cs, []) c.id
  rw [buildCommentTree] at *
  rw [h, initMap_get_mem cs c hc hn]
  simp

theorem buildCommentTree_get_of_not_mem (cs : List Comment) (i : String)
    (h : i ∉ cs.map (fun c => c.id)) :
    mapGet (buildCommentTree cs).1 i = none := by
  have hh := foldl_buildStep_fst_get cs (initMap cs, []) i
  rw [buildCommentTree] at *
  rw [hh, initMap_get_not_mem cs i h]
  rfl

/-! ## Counting the nodes of the returned tree -/

/-- A comment whose parent reference, as the builder sees it, is either
absent or resolved by one of the comments in the given prefix.  During
the second pass, exactly these comments root a fully placed subtree. -/
def rootWrt (xs : List Comment) (c : Comment) : Bool :=
  match parentKey c with
  | none => true
  | some p => decide (p ∈ xs.map (fun d => d.id))

theorem parentsResolveEarlier_decomp :
    ∀ (base : List Comment) (seen : List String),
      parentsResolveEarlier seen base = true →
      ∀ (xs : List Comment) (c : Comment) (ys : List Comment), base = xs ++ c :: ys →
      ∀ p, parentKey c = some p → p ∈ seen ++ xs.map (fun d => d.id) := by
  intro base seen h xs
  induction xs generalizing base seen with
  | nil =>
    intro c ys hb p hp
    subst hb
    simp only [parentsResolveEarlier, hp, Bool.and_eq_true, decide_eq_true_eq] at h
    simpa using h.1
  | cons a xs ih =>
    intro c ys hb p hp
    subst hb
    simp only [List.cons_append, parentsResolveEarlier, Bool.and_eq_true] at h
    have := ih (xs ++ c :: ys) (seen ++ [a.id]) h.2 c ys rfl p hp
    simpa [List.append_assoc] using this

/-- With pairwise distinct ids, the id of a comment occurs neither
among the ids before it nor among the ids after it. -/
theorem id_not_elsewhere (cs xs ys : List Comment) (c : Comment)
    (hcs : cs = xs ++ c :: ys) (hn : (cs.map (fun c => c.id)).Nodup) :
    c.id ∉ xs.map (fun d => d.id) ∧ c.id ∉ ys.map (fun d => d.id) := by
  subst hcs
  simp only [List.map_append, List.map_cons] at hn
  have := List.nodup_middle.mp hn
  rcases List.nodup_cons.mp this with ⟨hnot, _⟩
  simp only [List.mem_append, not_or] at hnot
  exact hnot

/-- In a list with distinct ids and earlier-resolving parents, only
comments strictly after a given comment can carry it as parent. -/
theorem filter_parent_ref_after (cs xs ys : List Comment) (c : Comment)
    (hcs : cs = xs ++ c :: ys)
    (hn : (cs.map (fun c => c.id)).Nodup)
    (hp : parentEarlier cs = true) :
    cs.filter (fun d => decide (parentKey d = some c.id)) =
      ys.filter (fun d => decide (parentKey d = some c.id)) := by
  have hnotxs : c.id ∉ xs.map (fun d => d.id) := (id_not_elsewhere cs xs ys c hcs hn).1
  have hxs : xs.filter (fun d => decide (parentKey d = some c.id)) = [] := by
    refine List.filter_eq_nil_iff.mpr ?_
    intro e he
    simp only [decide_eq_true_eq]
    intro hkey
    obtain ⟨u, w, huw⟩ := List.append_of_mem he
    have hdec : cs = u ++ e :: (w ++ c :: ys) := by
      rw [hcs, huw]; simp [List.append_assoc]
    have hmem := parentsResolveEarlier_decomp cs [] hp u e (w ++ c :: ys) hdec c.id hkey
    simp only [List.nil_append] at hmem
    have : c.id ∈ xs.map (fun d => d.id) := by
      rw [huw]
      simp only [List.map_append, List.mem_append]
      exact Or.inl hmem
    exact hnotxs this
  have hcself : (decide (parentKey c = some c.id)) = false := by
    simp only [decide_eq_false_iff_not]
    intro hkey
    have hmem := parentsResolveEarlier_decomp cs [] hp xs c ys hcs c.id hkey
    simp only [List.nil_append] at hmem
    exact hnotxs hmem
  rw [hcs, List.filter_append, hxs, List.filter_cons, hcself]
  simp

/-- Splitting a filtered sum along a disjunction of disjoint tests. -/
theorem filter_or_sum_split {α : Type} (l : List α) (p q : α → Bool) (F : α → Nat)
    (hdisj : ∀ a ∈ l, ¬(p a = true ∧ q a = true)) :
    ((l.filter (fun a => p a || q a)).map F).sum =
      ((l.filter p).map F).sum + ((l.filter q).map F).sum := by
  induction l with
  | nil => simp
  | cons a l ih =>
    have hrest : ∀ b ∈ l, ¬(p b = true ∧ q b = true) :=
      fun b hb => hdisj b (List.mem_cons_of_mem a hb)
    have ha := hdisj a (List.mem_cons_self a l)
    cases hpa : p a with
    | true =>
      have hqa : q a = false := by
        cases hqa : q a with
        | true => exact absurd ⟨hpa, hqa⟩ ha
        | false => rfl
      simp [List.filter_cons, hpa, hqa, ih hrest]
      omega
    | false =>
      cases hqa : q a with
      | true =>
        simp [List.filter_cons, hpa, hqa, ih hrest]
        omega
      | false =>
        simp [List.filter_cons, hpa, hqa, ih hrest]

/-- The recursive node count of a placed subtree does not change once
the fuel exceeds the number of comments after its root: all reply
edges point strictly forward in the input list. -/
theorem countNode_fuel_stable (bud : Nat) :
    ∀ (cs xs ys : List Comment) (c : Comment), cs = xs ++ c :: ys →
      (cs.map (fun c => c.id)).Nodup → parentEarlier cs = true →
      ys.length ≤ bud →
      ∀ f₁ f₂ : Nat, ys.length < f₁ → ys.length < f₂ →
      countNode (buildCommentTree cs).1 f₁ c.id =
        countNode (buildCommentTree cs).1 f₂ c.id := by
  induction bud with
  | zero =>
    intro cs xs ys c hcs hn hp hbud f₁ f₂ h1 h2
    obtain ⟨a, rfl⟩ : ∃ a, f₁ = a + 1 := ⟨f₁ - 1, by omega⟩
    obtain ⟨b, rfl⟩ : ∃ b, f₂ = b + 1 := ⟨f₂ - 1, by omega⟩
    have hys : ys = [] := List.eq_nil_of_length_eq_zero (by omega)
    subst hys
    have hc : c ∈ cs := by rw [hcs]; simp
    have hget := buildCommentTree_get_of_mem cs c hc hn
    rw [filter_parent_ref_after cs xs [] c hcs hn hp] at hget
    simp [countNode, hget]
  | succ bud ih =>
    intro cs xs ys c hcs hn hp hbud f₁ f₂ h1 h2
    obtain ⟨a, rfl⟩ : ∃ a, f₁ = a + 1 := ⟨f₁ - 1, by omega⟩
    obtain ⟨b, rfl⟩ : ∃ b, f₂ = b + 1 := ⟨f₂ - 1, by omega⟩
    have hc : c ∈ cs := by rw [hcs]; simp
    have hget := buildCommentTree_get_of_mem cs c hc hn
    rw [filter_parent_ref_after cs xs ys c hcs hn hp] at hget
    simp only [countNode, hget]
    have hcong : ∀ x ∈ (ys.filter (fun d => decide (parentKey d = some c.id))).map
        (fun d => d.id),
        countNode (buildCommentTree cs).1 a x = countNode (buildCommentTree cs).1 b x := by
      intro x hx
      obtain ⟨d, hdf, rfl⟩ := List.mem_map.mp hx
      have hdys : d ∈ ys := List.mem_of_mem_filter hdf
      obtain ⟨u, v, huv⟩ := List.append_of_mem hdys
      have hlen : u.length + v.length + 1 = ys.length := by
        rw [huv]; simp; omega
      have hdec : cs = (xs ++ c :: u) ++ d :: v := by
        rw [hcs, huv]; simp
      exact ih cs (xs ++ c :: u) v d hdec hn hp (by omega) a b (by omega) (by omega)
    rw [List.map_congr_left hcong]

/-- rootWrt relative to a prefix extended by one comment splits into
rootWrt relative to the prefix or having that comment as parent. -/
theorem rootWrt_append (xs : List Comment) (c d : Comment) :
    rootWrt (xs ++ [c]) d =
      (rootWrt xs d || decide (parentKey d = some c.id)) := by
  cases hp : parentKey d with
  | none => simp [rootWrt, hp]
  | some p =>
    simp only [rootWrt, hp, List.map_append, List.map_cons, List.map_nil]
    by_cases hmem : p ∈ xs.map (fun d => d.id)
    · simp [hmem]
    · by_cases hpc : p = c.id
      · simp [hmem, hpc]
      · simp [hmem, hpc]

/-- Processing a suffix of the input whose prefix has already been
placed: the subtree counts of the suffix comments that are roots or
whose parent lies in the prefix total exactly the suffix length. -/
theorem tree_sum_aux (bud : Nat) :
    ∀ (cs xs ys : List Comment), cs = xs ++ ys →
      (cs.map (fun c => c.id)).Nodup → parentEarlier cs = true →
      ys.length ≤ bud →
      ∀ fuel, ys.length ≤ fuel →
      ((ys.filter (rootWrt xs)).map
        (fun c => countNode (buildCommentTree cs).1 fuel c.id)).sum = ys.length := by
  induction bud with
  | zero =>
    intro cs xs ys hcs hn hp hbud fuel hfuel
    have hys : ys = [] := List.eq_nil_of_length_eq_zero (by omega)
    subst hys
    simp
  | succ bud ih =>
    intro cs xs ys hcs hn hp hbud fuel hfuel
    cases ys with
    | nil => simp
    | cons c ys =>
      obtain ⟨f, rfl⟩ : ∃ f, fuel = f + 1 := ⟨fuel - 1, by simp at hfuel; omega⟩
      simp only [List.length_cons] at hbud hfuel
      have hc : c ∈ cs := by rw [hcs]; simp
      have hroot : rootWrt xs c = true := by
        cases hpk : parentKey c with
        | none => simp [rootWrt, hpk]
        | some p =>
          have hmem := parentsResolveEarlier_decomp cs [] hp xs c ys hcs p hpk
          simp only [List.nil_append] at hmem
          simp [rootWrt, hpk, hmem]
      rw [List.filter_cons_of_pos hroot, List.map_cons, List.sum_cons]
      have hget := buildCommentTree_get_of_mem cs c hc hn
      rw [filter_parent_ref_after cs xs ys c hcs hn hp] at hget
      have hhead : countNode (buildCommentTree cs).1 (f + 1) c.id =
          1 + ((ys.filter (fun d => decide (parentKey d = some c.id))).map
            (fun d => countNode (buildCommentTree cs).1 f d.id)).sum := by
        simp only [countNode, hget, List.map_map]
        rfl
      have hstable : (ys.filter (rootWrt xs)).map
            (fun d => countNode (buildCommentTree cs).1 (f + 1) d.id) =
          (ys.filter (rootWrt xs)).map
            (fun d => countNode (buildCommentTree cs).1 f d.id) := by
        refine List.map_congr_left ?_
        intro d hdf
        have hdys : d ∈ ys := List.mem_of_mem_filter hdf
        obtain ⟨u, v, huv⟩ := List.append_of_mem hdys
        have hlen : u.length + v.length + 1 = ys.length := by
          rw [huv]; simp; omega
        have hdec : cs = (xs ++ c :: u) ++ d :: v := by
          rw [hcs, huv]; simp
        exact countNode_fuel_stable bud cs (xs ++ c :: u) v d hdec hn hp
          (by omega) (f + 1) f (by omega) (by omega)
      have hsplit : ((ys.filter (rootWrt (xs ++ [c]))).map
            (fun d => countNode (buildCommentTree cs).1 f d.id)).sum =
          ((ys.filter (rootWrt xs)).map
            (fun d => countNode (buildCommentTree cs).1 f d.id)).sum +
          ((ys.filter (fun d => decide (parentKey d = some c.id))).map
            (fun d => countNode (buildCommentTree cs).1 f d.id)).sum := by
        have hpt : ∀ d ∈ ys, rootWrt (xs ++ [c]) d =
            (rootWrt xs d || decide (parentKey d = some c.id)) :=
          fun d _ => rootWrt_append xs c d
        rw [List.filter_congr hpt]
        refine filter_or_sum_split ys _ _ _ ?_
        intro d _ hand
        have hpk : parentKey d = some c.id := by
          have := hand.2
          simpa using this
        have hmem : c.id ∈ xs.map (fun e => e.id) := by
          have := hand.1
          simpa [rootWrt, hpk] using this
        exact (id_not_elsewhere cs xs ys c hcs hn).1 hmem
      have hih := ih cs (xs ++ [c]) ys (by rw [hcs]; simp) hn hp (by omega) f (by omega)
      rw [hhead, hstable]
      simp only [List.length_cons]
      omega

/-- Root-relative-to-nothing is exactly the builder's root test. -/
theorem rootWrt_nil (d : Comment) :
    rootWrt [] d = decide (parentKey d = none) := by
  cases hpk : parentKey d <;> simp [rootWrt, hpk]

/-- C1 (amended): for every flat comment list with pairwise distinct
identifiers in which every truthy parent reference names a comment
appearing strictly earlier, the number of comment nodes reachable from
the returned root list, counted recursively through the replies lists
(with any recursion bound of at least the input length), equals the
length of the input list: no comment is lost and none is duplicated.
As stated over arbitrary lists the claim fails, because a comment
whose parent reference resolves to no input comment is dropped. -/
theorem buildCommentTree_count_eq_length (cs : List Comment)
    (hn : (cs.map (fun c => c.id)).Nodup)
    (hp : parentEarlier cs = true)
    (fuel : Nat) (hfuel : cs.length ≤ fuel) :
    (((buildCommentTree cs).2).map (countNode (buildCommentTree cs).1 fuel)).sum
      = cs.length := by
  have h := tree_sum_aux cs.length cs [] cs (by simp) hn hp le_rfl fuel hfuel
  have hpt : ∀ d ∈ cs, rootWrt [] d = decide (parentKey d = none) :=
    fun d _ => rootWrt_nil d
  rw [List.filter_congr hpt] at h
  rw [buildCommentTree_snd cs, List.map_map]
  simpa [Function.comp] using h

/-! ## Placement of individual comments -/

/-- Injectivity of the id field on a list with pairwise distinct ids. -/
theorem id_injective (cs : List Comment) (hn : (cs.map (fun c => c.id)).Nodup)
    {c d : Comment} (hc : c ∈ cs) (hd : d ∈ cs) (h : c.id = d.id) : c = d :=
  List.inj_on_of_nodup_map hn hc hd h

/-- Any id in the returned root list is the id of an input comment
without a truthy parent reference. -/
theorem mem_roots_elim (cs : List Comment) (x : String)
    (hx : x ∈ (buildCommentTree cs).2) :
    ∃ d ∈ cs, d.id = x ∧ parentKey d = none := by
  rw [buildCommentTree_snd cs] at hx
  obtain ⟨d, hdf, rfl⟩ := List.mem_map.mp hx
  exact ⟨d, List.mem_of_mem_filter hdf, rfl, by
    have := List.of_mem_filter hdf
    simpa using this⟩

/-- Any id in a replies list of the final map is the id of an input
comment whose truthy parent reference is that map key. -/
theorem mem_kids_elim (cs : List Comment) (hn : (cs.map (fun c => c.id)).Nodup)
    (q : String) (v : Comment × List String)
    (hget : mapGet (buildCommentTree cs).1 q = some v) (x : String) (hx : x ∈ v.2) :
    ∃ d ∈ cs, d.id = x ∧ parentKey d = some q := by
  by_cases hq : q ∈ cs.map (fun c => c.id)
  · obtain ⟨e, he, heq⟩ := List.mem_map.mp hq
    have hget2 := buildCommentTree_get_of_mem cs e he hn
    rw [heq] at hget2
    rw [hget2] at hget
    obtain rfl : (e, (cs.filter (fun d => decide (parentKey d = some q))).map
        (fun d => d.id)) = v := by injection hget
    obtain ⟨d, hdf, rfl⟩ := List.mem_map.mp hx
    exact ⟨d, List.mem_of_mem_filter hdf, rfl, by
      have := List.of_mem_filter hdf
      simpa using this⟩
  · rw [buildCommentTree_get_of_not_mem cs q hq] at hget
    cases hget

/-- Multiplicity of an input comment's id in a filtered projection of
the input: one when the comment passes the test, zero otherwise. -/
theorem count_id_filter (cs : List Comment) (P : Comment → Bool) (c : Comment)
    (hn : (cs.map (fun c => c.id)).Nodup) (hc : c ∈ cs) :
    ((cs.filter P).map (fun d => d.id)).count c.id = if P c then 1 else 0 := by
  induction cs with
  | nil => cases hc
  | cons d rest ih =>
    simp only [List.map_cons, List.nodup_cons] at hn
    have hsub : ∀ y, y ∈ (rest.filter P).map (fun e => e.id) → y ∈ rest.map (fun e => e.id) := by
      intro y hy
      obtain ⟨e, hef, rfl⟩ := List.mem_map.mp hy
      exact List.mem_map.mpr ⟨e, List.mem_of_mem_filter hef, rfl⟩
    rcases List.mem_cons.mp hc with rfl | hrest
    · have hzero : ((rest.filter P).map (fun e => e.id)).count c.id = 0 :=
        List.count_eq_zero_of_not_mem (fun hmem => hn.1 (hsub _ hmem))
      cases hP : P c with
      | true => simp [List.filter_cons, hP, List.count_cons, hzero]
      | false => simp [List.filter_cons, hP, hzero]
    · have hne : c.id ≠ d.id := by
        intro h
        exact hn.1 (h ▸ List.mem_map.mpr ⟨c, hrest, rfl⟩)
      cases hP : P d with
      | true => simp [List.filter_cons, hP, List.count_cons, hne, ih hn.2 hrest]
      | false => simp [List.filter_cons, hP, ih hn.2 hrest]

/-- C1 counterexample: on the one-element input whose parent reference
resolves to nothing, the returned tree reaches zero nodes while the
input has length one: the claimed count equation fails. -/
theorem buildCommentTree_orphan_count_counterexample :
    ¬ ((((buildCommentTree [orphanComment]).2).map
        (countNode (buildCommentTree [orphanComment]).1 [orphanComment].length)).sum
      = [orphanComment].length) := by decide

/-- Witness: the count equation at the specification's four-comment
example thread. -/
theorem buildCommentTree_count_eq_length_witness :
    (((buildCommentTree exampleThread).2).map
      (countNode (buildCommentTree exampleThread).1 exampleThread.length)).sum
      = exampleThread.length :=
  buildCommentTree_count_eq_length exampleThread (by decide) (by decide)
    exampleThread.length le_rfl

/-- C2 (amended): a comment whose truthy parent reference matches no
input comment's identifier is silently dropped by the builder: its id
appears neither in the returned root list nor in any replies list of
the returned map (and no error is raised: the builder is total).  The
original claim, that such a comment is promoted to the root list, is
refuted by the counterexample below. -/
theorem buildCommentTree_missing_parent_dropped (cs : List Comment) (c : Comment)
    (p : String) (hn : (cs.map (fun c => c.id)).Nodup) (hc : c ∈ cs)
    (hkey : parentKey c = some p) (hmiss : p ∉ cs.map (fun d => d.id)) :
    c.id ∉ (buildCommentTree cs).2 ∧
    ∀ q v, mapGet (buildCommentTree cs).1 q = some v → c.id ∉ v.2 := by
  constructor
  · intro hx
    obtain ⟨d, hd, hid, hdkey⟩ := mem_roots_elim cs c.id hx
    have : d = c := id_injective cs hn hd hc hid
    subst this
    rw [hkey] at hdkey
    cases hdkey
  · intro q v hget hx
    obtain ⟨d, hd, hid, hdkey⟩ := mem_kids_elim cs hn q v hget c.id hx
    have : d = c := id_injective cs hn hd hc hid
    subst this
    rw [hkey] at hdkey
    injection hdkey with hpq
    by_cases hq : q ∈ cs.map (fun e => e.id)
    · exact hmiss (by rw [hpq]; exact hq)
    · rw [buildCommentTree_get_of_not_mem cs q hq] at hget
      cases hget

/-- C2 counterexample: the orphan comment's truthy parent reference
matches nothing, yet the returned root list is empty: the comment is
not promoted to root. -/
theorem buildCommentTree_orphan_not_in_roots :
    parentKey orphanComment = some "missing" ∧
    "missing" ∉ [orphanComment].map (fun d => d.id) ∧
    orphanComment.id ∉ (buildCommentTree [orphanComment]).2 := by decide

/-- Witness: the amended drop behaviour at the concrete orphan input. -/
theorem buildCommentTree_missing_parent_dropped_witness :
    orphanComment.id ∉ (buildCommentTree [orphanComment]).2 ∧
    ∀ q v, mapGet (buildCommentTree [orphanComment]).1 q = some v →
      orphanComment.id ∉ v.2 :=
  buildCommentTree_missing_parent_dropped [orphanComment] orphanComment "missing"
    (by decide) (by decide) (by decide) (by decide)

/-- C3: a comment whose truthy parent reference matches an input
comment's identifier is placed exactly once, in that parent's replies
list: the parent's final replies list is the in-input-order projection
of the comments carrying that parent reference (so siblings keep their
chronological order), it contains the comment's id exactly once, and
the comment's id occurs neither in the root list nor in any other
replies list.  On the specification's example thread (A, B under A, C
under B, D under A, in creation order) the builder returns root A with
A's replies B, D and B's replies C. -/
theorem buildCommentTree_resolvable_parent_placement (cs : List Comment)
    (c par : Comment) (hn : (cs.map (fun c => c.id)).Nodup)
    (hc : c ∈ cs) (hpar : par ∈ cs) (hkey : parentKey c = some par.id) :
    (mapGet (buildCommentTree cs).1 par.id =
      some (par, (cs.filter (fun d => decide (parentKey d = some par.id))).map
        (fun d => d.id)) ∧
     ((cs.filter (fun d => decide (parentKey d = some par.id))).map
        (fun d => d.id)).count c.id = 1 ∧
     c.id ∉ (buildCommentTree cs).2 ∧
     (∀ q v, mapGet (buildCommentTree cs).1 q = some v → q ≠ par.id → c.id ∉ v.2)) ∧
    ((buildCommentTree exampleThread).2 = ["A"] ∧
     mapGet (buildCommentTree exampleThread).1 "A" =
       some (mkComment "A" none, ["B", "D"]) ∧
     mapGet (buildCommentTree exampleThread).1 "B" =
       some (mkComment "B" (some "A"), ["C"])) := by
  refine ⟨⟨buildCommentTree_get_of_mem cs par hpar hn, ?_, ?_, ?_⟩, by decide⟩
  · rw [count_id_filter cs _ c hn hc]
    simp [hkey]
  · intro hx
    obtain ⟨d, hd, hid, hdkey⟩ := mem_roots_elim cs c.id hx
    have hdc : d = c := id_injective cs hn hd hc hid
    subst hdc
    rw [hkey] at hdkey
    cases hdkey
  · intro q v hget hq hx
    obtain ⟨d, hd, hid, hdkey⟩ := mem_kids_elim cs hn q v hget c.id hx
    have hdc : d = c := id_injective cs hn hd hc hid
    subst hdc
    rw [hkey] at hdkey
    injection hdkey with hpq
    exact hq hpq.symm

/-! ## Vote handler lemmas -/

theorem voteKeyMatches_set_voteType (u tid : String) (tt : TargetType) (vt : VoteType)
    (w : Vote) : voteKeyMatches u tid tt { w with voteType := vt } = voteKeyMatches u tid tt w := by
  simp [voteKeyMatches]

theorem filter_map_comm {α : Type} (l : List α) (f : α → α) (p : α → Bool)
    (h : ∀ a, p (f a) = p a) : (l.map f).filter p = (l.filter p).map f := by
  induction l with
  | nil => rfl
  | cons a l ih =>
    cases hp : p a with
    | true => simp [List.filter_cons, h a, hp, ih]
    | false => simp [List.filter_cons, h a, hp, ih]

/-- Deleting by the id of a member of a duplicate-free store removes
exactly one record. -/
theorem length_filter_ne_id (l : List Vote) (v : Vote)
    (hn : (l.map (fun w => w.id)).Nodup) (hv : v ∈ l) :
    (l.filter (fun w => w.id != v.id)).length + 1 = l.length := by
  induction l with
  | nil => cases hv
  | cons w rest ih =>
    simp only [List.map_cons, List.nodup_cons] at hn
    rcases List.mem_cons.mp hv with rfl | hrest
    · have hall : rest.filter (fun x => x.id != v.id) = rest := by
        refine List.filter_eq_self.mpr ?_
        intro x hx
        simp only [bne_iff_ne, ne_eq]
        intro hxe
        exact hn.1 (hxe ▸ List.mem_map.mpr ⟨x, hx, rfl⟩)
      simp [List.filter_cons, hall]
    · have hne : w.id ≠ v.id := by
        intro h
        exact hn.1 (h ▸ List.mem_map.mpr ⟨v, hrest, rfl⟩)
      simp [List.filter_cons, hne, ih hn.2 hrest]

theorem voteMatches_filter (votes : List Vote) (q : Vote → Bool) (u tid : String)
    (tt : TargetType) :
    voteMatches (votes.filter q) u tid tt = (voteMatches votes u tid tt).filter q := by
  simp [voteMatches, List.filter_filter, Bool.and_comm]

theorem voteMatches_append (votes extra : List Vote) (u tid : String) (tt : TargetType) :
    voteMatches (votes ++ extra) u tid tt =
      voteMatches votes u tid tt ++ voteMatches extra u tid tt :=
  List.filter_append _ _

/-- Deleting the one matching record of a duplicate-free store: the
length drops by one, the (user, target) pair matches nothing any
more, and records of other ids survive. -/
theorem voteDelete_cases (votes : List Vote) (u tid : String) (tt : TargetType)
    (ev : Vote) (hids : (votes.map (fun v => v.id)).Nodup)
    (hM : voteMatches votes u tid tt = [ev]) :
    (votes.filter (fun w => w.id != ev.id)).length + 1 = votes.length ∧
    voteMatches (votes.filter (fun w => w.id != ev.id)) u tid tt = [] ∧
    ∀ w ∈ votes, w.id ≠ ev.id → w ∈ votes.filter (fun w => w.id != ev.id) := by
  have hev : ev ∈ votes := by
    have hm : ev ∈ voteMatches votes u tid tt := by
      rw [hM]; exact List.mem_singleton_self ev
    simp only [voteMatches] at hm
    exact List.mem_of_mem_filter hm
  refine ⟨length_filter_ne_id votes ev hids hev, ?_, ?_⟩
  · rw [voteMatches_filter, hM]
    simp
  · intro w hw hne
    exact List.mem_filter.mpr ⟨hw, by simpa using hne⟩

/-- Rewriting the direction of the one matching record in place: the
length is unchanged, the (user, target) pair now matches exactly the
updated record (same id), and records of other ids are untouched. -/
theorem voteUpdate_cases (votes : List Vote) (u tid : String) (tt : TargetType)
    (vt : VoteType) (ev : Vote) (hM : voteMatches votes u tid tt = [ev]) :
    (votes.map (fun w => if w.id = ev.id then { w with voteType := vt } else w)).length
      = votes.length ∧
    voteMatches (votes.map (fun w => if w.id = ev.id then { w with voteType := vt } else w))
      u tid tt = [{ ev with voteType := vt }] ∧
    ∀ w ∈ votes, w.id ≠ ev.id →
      w ∈ votes.map (fun w => if w.id = ev.id then { w with voteType := vt } else w) := by
  refine ⟨List.length_map _ _, ?_, ?_⟩
  · have hpt : ∀ w : Vote,
        voteKeyMatches u tid tt (if w.id = ev.id then { w with voteType := vt } else w)
          = voteKeyMatches u tid tt w := by
      intro w
      by_cases hw : w.id = ev.id <;> simp [hw, voteKeyMatches]
    simp only [voteMatches] at hM ⊢
    rw [filter_map_comm _ _ _ hpt, hM]
    simp
  · intro w hw hne
    refine List.mem_map.mpr ⟨w, hw, ?_⟩
    simp [hne]

/-- Appending a fresh record for a pair that had none: the pair now
matches exactly the new record. -/
theorem voteCreate_cases (votes : List Vote) (u tid : String) (tt : TargetType)
    (vt : VoteType) (fid : String) (hM : voteMatches votes u tid tt = []) :
    voteMatches (votes ++
        [{ id := fid, userId := u, targetId := tid, targetType := tt, voteType := vt }])
      u tid tt =
      [{ id := fid, userId := u, targetId := tid, targetType := tt, voteType := vt }] := by
  rw [voteMatches_append, hM]
  simp [voteMatches, List.filter_cons, voteKeyMatches]

/-- C4: the vote submission's effect on the vote store, by case on the
existing vote of the (user, target) pair, in PostDetail.handleVote
(posts and comments) and in the PostFeed handler (home-feed posts)
alike: an existing vote of the same direction is deleted with nothing
created; an existing vote of the opposite direction is updated in
place (same record id, new direction); with no existing vote exactly
one fresh record with the submitted direction is appended.  Records of
other ids are untouched in every case. -/
theorem handleVote_vote_record_cases (st : DBState) (u tid : String) (tt : TargetType)
    (vt : VoteType) (fid : String)
    (hids : (st.votes.map (fun v => v.id)).Nodup) :
    (∀ ev, voteMatches st.votes u tid tt = [ev] → ev.voteType = vt →
       (PostDetail.handleVote st u tid tt vt fid).votes.length + 1 = st.votes.length ∧
       voteMatches (PostDetail.handleVote st u tid tt vt fid).votes u tid tt = [] ∧
       ∀ w ∈ st.votes, w.id ≠ ev.id →
         w ∈ (PostDetail.handleVote st u tid tt vt fid).votes) ∧
    (∀ ev, voteMatches st.votes u tid tt = [ev] → ev.voteType ≠ vt →
       (PostDetail.handleVote st u tid tt vt fid).votes.length = st.votes.length ∧
       voteMatches (PostDetail.handleVote st u tid tt vt fid).votes u tid tt =
         [{ ev with voteType := vt }] ∧
       ∀ w ∈ st.votes, w.id ≠ ev.id →
         w ∈ (PostDetail.handleVote st u tid tt vt fid).votes) ∧
    (voteMatches st.votes u tid tt = [] →
       (PostDetail.handleVote st u tid tt vt fid).votes = st.votes ++
         [{ id := fid, userId := u, targetId := tid, targetType := tt, voteType := vt }] ∧
       voteMatches (PostDetail.handleVote st u tid tt vt fid).votes u tid tt =
         [{ id := fid, userId := u, targetId := tid, targetType := tt, voteType := vt }]) ∧
    (∀ (votes : List Vote) (posts : List Post) (u2 pid : String) (vt2 : VoteType)
       (fid2 : String), (votes.map (fun v => v.id)).Nodup →
       (∀ ev, voteMatches votes u2 pid TargetType.post = [ev] → ev.voteType = vt2 →
          (PostFeed.handleVote votes posts u2 pid vt2 fid2).1.length + 1 = votes.length ∧
          voteMatches (PostFeed.handleVote votes posts u2 pid vt2 fid2).1 u2 pid
            TargetType.post = [] ∧
          ∀ w ∈ votes, w.id ≠ ev.id →
            w ∈ (PostFeed.handleVote votes posts u2 pid vt2 fid2).1) ∧
       (∀ ev, voteMatches votes u2 pid TargetType.post = [ev] → ev.voteType ≠ vt2 →
          (PostFeed.handleVote votes posts u2 pid vt2 fid2).1.length = votes.length ∧
          voteMatches (PostFeed.handleVote votes posts u2 pid vt2 fid2).1 u2 pid
            TargetType.post = [{ ev with voteType := vt2 }] ∧
          ∀ w ∈ votes, w.id ≠ ev.id →
            w ∈ (PostFeed.handleVote votes posts u2 pid vt2 fid2).1) ∧
       (voteMatches votes u2 pid TargetType.post = [] →
          (PostFeed.handleVote votes posts u2 pid vt2 fid2).1 = votes ++
            [{ id := fid2, userId := u2, targetId := pid,
               targetType := TargetType.post, voteType := vt2 }] ∧
          voteMatches (PostFeed.handleVote votes posts u2 pid vt2 fid2).1 u2 pid
            TargetType.post =
            [{ id := fid2, userId := u2, targetId := pid,
               targetType := TargetType.post, voteType := vt2 }])) := by
  refine ⟨?_, ?_, ?_, ?_⟩
  · intro ev hM hsame
    have hvotes : (PostDetail.handleVote st u tid tt vt fid).votes =
        st.votes.filter (fun w => w.id != ev.id) := by
      simp [PostDetail.handleVote, hM, hsame]
    rw [hvotes]
    exact voteDelete_cases st.votes u tid tt ev hids hM
  · intro ev hM hdiff
    have hvotes : (PostDetail.handleVote st u tid tt vt fid).votes =
        st.votes.map (fun w => if w.id = ev.id then { w with voteType := vt } else w) := by
      simp [PostDetail.handleVote, hM, hdiff]
    rw [hvotes]
    exact voteUpdate_cases st.votes u tid tt vt ev hM
  · intro hM
    have hvotes : (PostDetail.handleVote st u tid tt vt fid).votes = st.votes ++
        [{ id := fid, userId := u, targetId := tid, targetType := tt, voteType := vt }] := by
      simp [PostDetail.handleVote, hM]
    rw [hvotes]
    exact ⟨rfl, voteCreate_cases st.votes u tid tt vt fid hM⟩
  · intro votes posts u2 pid vt2 fid2 hids2
    refine ⟨?_, ?_, ?_⟩
    · intro ev hM hsame
      have hfst : (PostFeed.handleVote votes posts u2 pid vt2 fid2).1 =
          votes.filter (fun w => w.id != ev.id) := by
        simp [PostFeed.handleVote, hM, hsame]
      rw [hfst]
      exact voteDelete_cases votes u2 pid TargetType.post ev hids2 hM
    · intro ev hM hdiff
      have hfst : (PostFeed.handleVote votes posts u2 pid vt2 fid2).1 =
          votes.map (fun w => if w.id = ev.id then { w with voteType := vt2 } else w) := by
        simp [PostFeed.handleVote, hM, hdiff]
      rw [hfst]
      exact voteUpdate_cases votes u2 pid TargetType.post vt2 ev hM
    · intro hM
      have hfst : (PostFeed.handleVote votes posts u2 pid vt2 fid2).1 = votes ++
          [{ id := fid2, userId := u2, targetId := pid,
             targetType := TargetType.post, voteType := vt2 }] := by
        simp [PostFeed.handleVote, hM]
      rw [hfst]
      exact ⟨rfl, voteCreate_cases votes u2 pid TargetType.post vt2 fid2 hM⟩

theorem atMostOneVote_filter (votes : List Vote) (q : Vote → Bool)
    (h : atMostOneVote votes) : atMostOneVote (votes.filter q) := by
  intro u tid tt
  have hsub : List.Sublist (voteMatches (votes.filter q) u tid tt)
      (voteMatches votes u tid tt) := by
    rw [voteMatches_filter]
    exact List.filter_sublist _
  exact le_trans hsub.length_le (h u tid tt)

theorem atMostOneVote_update (votes : List Vote) (x : String) (vt : VoteType)
    (h : atMostOneVote votes) :
    atMostOneVote (votes.map (fun w => if w.id = x then { w with voteType := vt } else w)) := by
  intro u tid tt
  have hpt : ∀ w : Vote,
      voteKeyMatches u tid tt (if w.id = x then { w with voteType := vt } else w)
        = voteKeyMatches u tid tt w := by
    intro w
    by_cases hw : w.id = x <;> simp [hw, voteKeyMatches]
  have hlen := h u tid tt
  simp only [voteMatches] at hlen ⊢
  rw [filter_map_comm _ _ _ hpt, List.length_map]
  exact hlen

theorem atMostOneVote_create (votes : List Vote) (u tid : String) (tt : TargetType)
    (vt : VoteType) (fid : String) (h : atMostOneVote votes)
    (hnone : voteMatches votes u tid tt = []) :
    atMostOneVote (votes ++
      [{ id := fid, userId := u, targetId := tid, targetType := tt, voteType := vt }]) := by
  intro u2 tid2 tt2
  rw [voteMatches_append]
  by_cases hkey : u = u2 ∧ tid = tid2 ∧ tt = tt2
  · obtain ⟨rfl, rfl, rfl⟩ := hkey
    rw [hnone]
    simp [voteMatches, List.filter_cons, voteKeyMatches]
  · have hnv : voteMatches
        [{ id := fid, userId := u, targetId := tid, targetType := tt,
           voteType := vt : Vote }] u2 tid2 tt2 = [] := by
      simp only [voteMatches, List.filter_cons, List.filter_nil, voteKeyMatches]
      rw [if_neg]
      simp only [decide_eq_true_eq]
      exact hkey
    rw [hnv, List.append_nil]
    exact h u2 tid2 tt2

/-- C7: every vote submission preserves the store invariant of at most
one vote record per (user, target id, target kind) triple: in
PostDetail.handleVote and in the PostFeed handler alike, the retract
branch only removes records, the direction-change branch rewrites a
record in place without touching its key, and the create branch
appends a single record for a key that had no record. -/
theorem handleVote_preserves_at_most_one (st : DBState) (u tid : String)
    (tt : TargetType) (vt : VoteType) (fid : String)
    (hinv : atMostOneVote st.votes) :
    atMostOneVote (PostDetail.handleVote st u tid tt vt fid).votes ∧
    ∀ (votes : List Vote) (posts : List Post) (u2 pid : String) (vt2 : VoteType)
      (fid2 : String), atMostOneVote votes →
      atMostOneVote (PostFeed.handleVote votes posts u2 pid vt2 fid2).1 := by
  constructor
  · cases hM : (voteMatches st.votes u tid tt).head? with
    | none =>
      have hempty : voteMatches st.votes u tid tt = [] := List.head?_eq_none_iff.mp hM
      have hv : (PostDetail.handleVote st u tid tt vt fid).votes = st.votes ++
          [{ id := fid, userId := u, targetId := tid, targetType := tt,
             voteType := vt }] := by
        simp [PostDetail.handleVote, hM]
      rw [hv]
      exact atMostOneVote_create st.votes u tid tt vt fid hinv hempty
    | some ev =>
      by_cases hsame : ev.voteType = vt
      · have hv : (PostDetail.handleVote st u tid tt vt fid).votes =
            st.votes.filter (fun w => w.id != ev.id) := by
          simp [PostDetail.handleVote, hM, hsame]
        rw [hv]
        exact atMostOneVote_filter st.votes _ hinv
      · have hv : (PostDetail.handleVote st u tid tt vt fid).votes =
            st.votes.map (fun w => if w.id = ev.id then { w with voteType := vt } else w) := by
          simp [PostDetail.handleVote, hM, hsame]
        rw [hv]
        exact atMostOneVote_update st.votes ev.id vt hinv
  · intro votes posts u2 pid vt2 fid2 hv
    cases hM : (voteMatches votes u2 pid TargetType.post).head? with
    | none =>
      have hempty : voteMatches votes u2 pid TargetType.post = [] :=
        List.head?_eq_none_iff.mp hM
      have hfst : (PostFeed.handleVote votes posts u2 pid vt2 fid2).1 = votes ++
          [{ id := fid2, userId := u2, targetId := pid,
             targetType := TargetType.post, voteType := vt2 }] := by
        simp [PostFeed.handleVote, hM]
      rw [hfst]
      exact atMostOneVote_create votes u2 pid TargetType.post vt2 fid2 hv hempty
    | some ev =>
      by_cases hsame : ev.voteType = vt2
      · have hfst : (PostFeed.handleVote votes posts u2 pid vt2 fid2).1 =
            votes.filter (fun w => w.id != ev.id) := by
          simp [PostFeed.handleVote, hM, hsame]
        rw [hfst]
        exact atMostOneVote_filter votes _ hv
      · have hfst : (PostFeed.handleVote votes posts u2 pid vt2 fid2).1 =
            votes.map (fun w => if w.id = ev.id then { w with voteType := vt2 } else w) := by
          simp [PostFeed.handleVote, hM, hsame]
        rw [hfst]
        exact atMostOneVote_update votes ev.id vt2 hv

/-- Witness: the invariant holds after a vote on the concrete one-vote
store. -/
theorem handleVote_preserves_at_most_one_witness :
    atMostOneVote (PostDetail.handleVote votedState "u1" "c1" TargetType.comment
      VoteType.upvote "v9").votes ∧
    ∀ (votes : List Vote) (posts : List Post) (u2 pid : String) (vt2 : VoteType)
      (fid2 : String), atMostOneVote votes →
      atMostOneVote (PostFeed.handleVote votes posts u2 pid vt2 fid2).1 :=
  handleVote_preserves_at_most_one votedState "u1" "c1" TargetType.comment
    VoteType.upvote "v9"
    (by
      intro u tid tt
      have hsub : (votedState.votes.filter (voteKeyMatches u tid tt)).length ≤
          votedState.votes.length := (List.filter_sublist votedState.votes).length_le
      simpa [voteMatches, votedState] using hsub)

/-- Witness: retracting an existing same-direction vote at a concrete
one-vote store, through the post-detail handler and through the
home-feed handler. -/
theorem handleVote_vote_record_cases_witness :
    ((PostDetail.handleVote votedState "u1" "c1" TargetType.comment VoteType.upvote
        "v9").votes.length + 1 = votedState.votes.length ∧
     voteMatches (PostDetail.handleVote votedState "u1" "c1" TargetType.comment
        VoteType.upvote "v9").votes "u1" "c1" TargetType.comment = []) ∧
    ((PostFeed.handleVote [examplePostVote] [examplePost] "u1" "p1" VoteType.upvote
        "v8").1.length + 1 = [examplePostVote].length ∧
     voteMatches (PostFeed.handleVote [examplePostVote] [examplePost] "u1" "p1"
        VoteType.upvote "v8").1 "u1" "p1" TargetType.post = []) := by
  have h := handleVote_vote_record_cases votedState "u1" "c1" TargetType.comment
    VoteType.upvote "v9" (by decide)
  have h1 := h.1 existingUpvote (by decide) (by decide)
  have h4 := h.2.2.2 [examplePostVote] [examplePost] "u1" "p1" VoteType.upvote "v8"
    (by decide)
  have h41 := h4.1 examplePostVote (by decide) (by decide)
  exact ⟨⟨h1.1, h1.2.1⟩, ⟨h41.1, h41.2.1⟩⟩

/-- C6: with no existing vote by the user on the comment, submitting
an upvote and then an upvote again through PostDetail.handleVote
restores the original store exactly: the created record is found by
the second submission as a same-direction vote and deleted, and no
other collection is ever written, so the whole state (votes, comments
and posts, hence every stored counter and displayed net score) equals
the state before the first submission. -/
theorem handleVote_upvote_twice_identity (st : DBState) (u cid fid : String)
    (hno : voteMatches st.votes u cid TargetType.comment = [])
    (hfresh : fid ∉ st.votes.map (fun v => v.id)) :
    PostDetail.handleVote
      (PostDetail.handleVote st u cid TargetType.comment VoteType.upvote fid)
      u cid TargetType.comment VoteType.upvote fid = st := by
  have h1 : PostDetail.handleVote st u cid TargetType.comment VoteType.upvote fid =
      { st with votes := st.votes ++
        [{ id := fid, userId := u, targetId := cid,
           targetType := TargetType.comment, voteType := VoteType.upvote }] } := by
    simp [PostDetail.handleVote, hno]
  rw [h1]
  have hM2 : voteMatches (st.votes ++
      [{ id := fid, userId := u, targetId := cid,
         targetType := TargetType.comment, voteType := VoteType.upvote }])
      u cid TargetType.comment =
      [{ id := fid, userId := u, targetId := cid,
         targetType := TargetType.comment, voteType := VoteType.upvote }] := by
    rw [voteMatches_append, hno]
    simp [voteMatches, List.filter_cons, voteKeyMatches]
  have hkeep : st.votes.filter (fun w => w.id != fid) = st.votes := by
    refine List.filter_eq_self.mpr ?_
    intro w hw
    simp only [bne_iff_ne, ne_eq]
    intro hwe
    exact hfresh (hwe ▸ List.mem_map.mpr ⟨w, hw, rfl⟩)
  simp [PostDetail.handleVote, hM2, hkeep]

/-- Witness: the double upvote at the concrete empty-vote store. -/
theorem handleVote_upvote_twice_identity_witness :
    PostDetail.handleVote
      (PostDetail.handleVote freshState "u1" "c1" TargetType.comment VoteType.upvote "v7")
      "u1" "c1" TargetType.comment VoteType.upvote "v7" = freshState :=
  handleVote_upvote_twice_identity freshState "u1" "c1" "v7" (by decide) (by decide)

/-- C5 (code bug): on the concrete store whose comment c1 carries
stored counters upvotes 5 and downvotes 1 and which holds one upvote
by user u1 on c1, submitting a downvote leaves exactly one vote record
for the pair, now with direction downvote, as the claim requires; but
PostDetail.handleVote writes only the votes collection, so the
comment's stored counters and its displayed score upvotes minus
downvotes stay 4 instead of dropping by 2 to 2. -/
theorem handleVote_comment_score_unchanged :
    (PostDetail.handleVote votedState "u1" "c1" TargetType.comment VoteType.downvote
        "v9").votes = [{ existingUpvote with voteType := VoteType.downvote }] ∧
    (PostDetail.handleVote votedState "u1" "c1" TargetType.comment VoteType.downvote
        "v9").comments = votedState.comments ∧
    votedState.comments.map (fun c => c.upvotes - c.downvotes) = [4] ∧
    (PostDetail.handleVote votedState "u1" "c1" TargetType.comment VoteType.downvote
        "v9").comments.map (fun c => c.upvotes - c.downvotes) = [4] := by decide

/-- C8 (amended): a reply submission with non-blank text on a comment
rendered at depth d appends exactly one new comment record, whose
parent reference is the replied-to comment and whose depth field is
min(d + 1, 10), leaves the votes collection untouched, and sets the
stored record of the parent post to the component's held copy's
comment count plus one.  That write is an increment of the stored
counter by exactly one precisely when the held copy agrees with the
stored record (as right after a load) — stated as the final
conditional conjunct — but not in general: the component's post state
is not refreshed after a reply, so the original always-increments
claim fails on consecutive replies (see the counterexample). -/
theorem handleSubmitReply_sets_stored_count (st : DBState) (p : Post) (replyText : String)
    (u pid parId : String) (d : Nat) (fid : String) (now : Nat)
    (htext : (PostDetail.jsTrim replyText).isEmpty = false) :
    ∃ c : Comment,
      (PostDetail.handleSubmitReply st (some p) replyText u pid parId d fid now).comments
        = st.comments ++ [c] ∧
      c.parentId = some parId ∧
      c.depth = min (d + 1) 10 ∧
      (PostDetail.handleSubmitReply st (some p) replyText u pid parId d fid now).posts
        = st.posts.map (fun q =>
            if q.id = pid then { q with commentCount := p.commentCount + 1 } else q) ∧
      (PostDetail.handleSubmitReply st (some p) replyText u pid parId d fid now).votes
        = st.votes ∧
      ((∀ q ∈ st.posts, q.id = pid → q.commentCount = p.commentCount) →
        (PostDetail.handleSubmitReply st (some p) replyText u pid parId d fid now).posts
          = st.posts.map (fun q =>
              if q.id = pid then { q with commentCount := q.commentCount + 1 } else q)) := by
  refine ⟨{ id := fid, content := PostDetail.jsTrim replyText, authorId := u,
            postId := pid, parentId := some parId, upvotes := 0, downvotes := 0,
            depth := min (d + 1) 10, isDeleted := false, createdAt := now },
          ?_, rfl, rfl, ?_, ?_, ?_⟩
  · simp [PostDetail.handleSubmitReply, htext]
  · simp [PostDetail.handleSubmitReply, htext]
  · simp [PostDetail.handleSubmitReply, htext]
  · intro hsync
    have hpt : ∀ q ∈ st.posts,
        (if q.id = pid then { q with commentCount := p.commentCount + 1 } else q)
          = (if q.id = pid then { q with commentCount := q.commentCount + 1 } else q) := by
      intro q hq
      by_cases hqp : q.id = pid
      · simp [hqp, hsync q hq hqp]
      · simp [hqp]
    simp only [PostDetail.handleSubmitReply, htext, Bool.false_eq_true, if_false]
    exact List.map_congr_left hpt

/-- C8 counterexample: two consecutive non-blank replies with the
component's post state held fixed (the source updates it only on
load, never after a reply).  The first reply sets the stored count
from 0 to 1; the second creates one more comment record yet writes
statePost.commentCount + 1 = 1 again, so the stored comment count is
not incremented by exactly one. -/
theorem handleSubmitReply_stale_count_counterexample :
    (PostDetail.handleSubmitReply freshState (some examplePost) "First reply"
        "u1" "p1" "c1" 0 "c8" 4).posts.map (fun q => q.commentCount) = [1] ∧
    (PostDetail.handleSubmitReply
        (PostDetail.handleSubmitReply freshState (some examplePost) "First reply"
          "u1" "p1" "c1" 0 "c8" 4)
        (some examplePost) "Second reply" "u1" "p1" "c1" 0 "c9" 5).posts.map
        (fun q => q.commentCount) = [1] ∧
    (PostDetail.handleSubmitReply
        (PostDetail.handleSubmitReply freshState (some examplePost) "First reply"
          "u1" "p1" "c1" 0 "c8" 4)
        (some examplePost) "Second reply" "u1" "p1" "c1" 0 "c9" 5).comments.length =
      (PostDetail.handleSubmitReply freshState (some examplePost) "First reply"
        "u1" "p1" "c1" 0 "c8" 4).comments.length + 1 := by decide

/-- Witness: a concrete reply submission on the example store, where
the held copy agrees with the store and the conditional conjunct gives
the increment by one. -/
theorem handleSubmitReply_sets_stored_count_witness :
    ∃ c : Comment,
      (PostDetail.handleSubmitReply freshState (some examplePost) "Nice post"
          "u1" "p1" "c1" 0 "c9" 5).comments = freshState.comments ++ [c] ∧
      c.parentId = some "c1" ∧
      c.depth = min (0 + 1) 10 ∧
      (PostDetail.handleSubmitReply freshState (some examplePost) "Nice post"
          "u1" "p1" "c1" 0 "c9" 5).posts
        = freshState.posts.map (fun q =>
            if q.id = "p1" then { q with commentCount := examplePost.commentCount + 1 } else q) ∧
      (PostDetail.handleSubmitReply freshState (some examplePost) "Nice post"
          "u1" "p1" "c1" 0 "c9" 5).votes = freshState.votes ∧
      ((∀ q ∈ freshState.posts, q.id = "p1" → q.commentCount = examplePost.commentCount) →
        (PostDetail.handleSubmitReply freshState (some examplePost) "Nice post"
            "u1" "p1" "c1" 0 "c9" 5).posts
          = freshState.posts.map (fun q =>
              if q.id = "p1" then { q with commentCount := q.commentCount + 1 } else q)) :=
  handleSubmitReply_sets_stored_count freshState examplePost "Nice post"
    "u1" "p1" "c1" 0 "c9" 5 (by decide)

/-- C10: the vote actions of the search-results page and of the
trending page are stubs: they perform no store mutation at all, for
every state, post and direction; whereas the home-feed handler on the
same vote submission does mutate the store (shown at a concrete
no-vote state, where it appends a vote record). -/
theorem stub_vote_handlers_no_mutation :
    (∀ (st : DBState) (pid : String) (vt : VoteType),
       SearchResults.handleVote st pid vt = st ∧
       TrendingPage.handleVote st pid vt = st) ∧
    ¬ (PostFeed.handleVote [] [examplePost] "u1" "p1" VoteType.upvote "v5"
        = ([], [examplePost])) := by
  refine ⟨fun st pid vt => ⟨rfl, rfl⟩, ?_⟩
  decide

/-- Witness: placement of comment B under its parent A in the example
thread. -/
theorem buildCommentTree_resolvable_parent_placement_witness :
    (mapGet (buildCommentTree exampleThread).1 (mkComment "A" none).id =
      some (mkComment "A" none,
        (exampleThread.filter (fun d =>
          decide (parentKey d = some (mkComment "A" none).id))).map (fun d => d.id)) ∧
     ((exampleThread.filter (fun d =>
        decide (parentKey d = some (mkComment "A" none).id))).map
          (fun d => d.id)).count (mkComment "B" (some "A")).id = 1 ∧
     (mkComment "B" (some "A")).id ∉ (buildCommentTree exampleThread).2 ∧
     (∀ q v, mapGet (buildCommentTree exampleThread).1 q = some v →
        q ≠ (mkComment "A" none).id → (mkComment "B" (some "A")).id ∉ v.2)) ∧
    ((buildCommentTree exampleThread).2 = ["A"] ∧
     mapGet (buildCommentTree exampleThread).1 "A" =
       some (mkComment "A" none, ["B", "D"]) ∧
     mapGet (buildCommentTree exampleThread).1 "B" =
       some (mkComment "B" (some "A"), ["C"])) :=
  buildCommentTree_resolvable_parent_placement exampleThread
    (mkComment "B" (some "A")) (mkComment "A" none)
    (by decide) (by decide) (by decide) (by decide)
